import Mathlib

/-!
Verification of the incremental XML stanza parser of the jackal repository
(`xml/parser.go`).  The parser is shallowly embedded: the external tokenizer
(Go's `encoding/xml` `Decoder.RawToken`, an out-of-scope collaborator per the
design document) is modelled as a list of primitive tokens, each annotated
with the decoder's input byte offset after reading that token; exhaustion of
the list models a read error (EOF or I/O failure) from `RawToken`.  Go panics
(out-of-range slice indexing) are modelled by an explicit `panic` result.
-/

namespace Jackal

/-- Modelled from the spec: an attribute of the element package (qualified
name and string value); the `Attribute` type of the repository's `xml`
package is not under `src/`. -/
structure Attribute where
  name : String
  value : String
deriving DecidableEq, Repr

/-- A raw attribute as delivered by the tokenizer: namespace prefix, local
name and value (Go's `xml.Attr` with `Name.Space`/`Name.Local`/`Value`). -/
structure RawAttr where
  space : String
  localName : String
  value : String
deriving DecidableEq, Repr

/-- Modelled from the spec: the `Element` tree of the repository's `xml`
package (not under `src/`): qualified name, ordered attribute list, text
content, and children in document order. -/
inductive Element : Type where
  | mk (name : String) (attrs : List Attribute) (text : String)
       (elements : List Element) : Element

/-- Qualified name of an element (Go's `Element.Name()`). -/
def Element.name : Element → String
  | .mk n _ _ _ => n

/-- Attribute list of an element. -/
def Element.attrs : Element → List Attribute
  | .mk _ a _ _ => a

/-- Text content of an element. -/
def Element.text : Element → String
  | .mk _ _ t _ => t

/-- Children of an element, in document order. -/
def Element.elements : Element → List Element
  | .mk _ _ _ es => es

/-- Modelled from the spec: `Element.AppendElement` of the repository's `xml`
package (not under `src/`) appends a child as the last child, preserving
document order. -/
def Element.AppendElement : Element → Element → Element
  | .mk n a t es, c => .mk n a t (es ++ [c])

/-- Replacing the text of an element (the Go assignment `elem.text = string(t)`
performed by `setElementText`); prior text is overwritten, not appended. -/
def Element.withText : Element → String → Element
  | .mk n a _ es, s => .mk n a s es

/-- `xmlName` from `parser.go`: the qualified name, `space:local` when a
namespace prefix is present, else just the local name. -/
def xmlName (space localName : String) : String :=
  if space.length > 0 then space ++ ":" ++ localName else localName

/-- Modelled from the spec: the `attributeSet` constructor of the repository's
`xml` package (not under `src/`): an ordered attribute collection where
insertion order is preserved and, on a duplicate qualified name, the last
value wins and takes the position of the latest occurrence. -/
def attributeSet (attrs : List Attribute) : List Attribute :=
  attrs.foldl (fun acc a => acc.filter (fun b => b.name != a.name) ++ [a]) []

/-- `rootElementIndex` from `parser.go`. -/
def rootElementIndex : Int := -1

/-- `streamName` from `parser.go`. -/
def streamName : String := "stream"

/-- The four primitive token kinds consumed from the tokenizer
(`xml.ProcInst`, `xml.StartElement`, `xml.CharData`, `xml.EndElement`);
`RawToken` does not translate namespace prefixes, so `space` is the literal
prefix. -/
inductive Token : Type where
  | procInst : Token
  | startElement (space localName : String) (attrs : List RawAttr) : Token
  | charData (text : String) : Token
  | endElement (space localName : String) : Token
deriving DecidableEq, Repr

/-- The `Parser` struct from `parser.go` minus the decoder handle (the token
stream is passed explicitly to `ParseElement`). -/
structure Parser where
  nextElement : Option Element
  parsingIndex : Int
  parsingStack : List Element
  inElement : Bool
  lastOffset : Int
  maxStanzaSize : Int

/-- `NewParser` from `parser.go`: empty stack, parsing index at the root
sentinel, zero offsets. -/
def NewParser (maxStanzaSize : Int) : Parser :=
  { nextElement := none
    parsingIndex := rootElementIndex
    parsingStack := []
    inElement := false
    lastOffset := 0
    maxStanzaSize := maxStanzaSize }

/-- The Go slice read `p.parsingStack[p.parsingIndex]`; `none` models the
runtime panic on an out-of-range (in particular negative) index. -/
def stackGet (p : Parser) : Option Element :=
  if p.parsingIndex < 0 then none
  else p.parsingStack[p.parsingIndex.toNat]?

/-- The element pushed by `startElement`: qualified name, qualified attribute
set, empty text, no children. -/
def startElementElem (space localName : String) (attrs : List RawAttr) : Element :=
  .mk (xmlName space localName)
    (attributeSet (attrs.map fun a => ⟨xmlName a.space a.localName, a.value⟩))
    "" []

/-- `Parser.startElement` from `parser.go`: push a fresh in-progress element,
increment the depth index, and set the in-element flag. -/
def Parser.startElement (p : Parser) (space localName : String)
    (attrs : List RawAttr) : Parser :=
  { p with parsingStack := p.parsingStack ++ [startElementElem space localName attrs]
           parsingIndex := p.parsingIndex + 1
           inElement := true }

/-- `Parser.setElementText` from `parser.go`: overwrite the text of the
element at the top of the stack; `none` models the panic on an invalid
index. -/
def Parser.setElementText (p : Parser) (text : String) : Option Parser :=
  match stackGet p with
  | none => none
  | some elem =>
    some { p with parsingStack := p.parsingStack.set p.parsingIndex.toNat (elem.withText text) }

/-- `Parser.closeElement` from `parser.go`: pop the top of the stack and
decrement the index; when the index returns to the root sentinel the popped
element becomes the pending result, otherwise it is appended as the last
child of the new top; the in-element flag is cleared in both cases.  `none`
models the panic on an invalid index. -/
def Parser.closeElement (p : Parser) : Option Parser :=
  match stackGet p with
  | none => none
  | some element =>
    let stack1 := p.parsingStack.take p.parsingIndex.toNat
    let idx1 := p.parsingIndex - 1
    if idx1 = rootElementIndex then
      some { p with parsingStack := stack1
                    parsingIndex := idx1
                    nextElement := some element
                    inElement := false }
    else
      match stack1[idx1.toNat]? with
      | none => none
      | some parent =>
        some { p with parsingStack := stack1.set idx1.toNat (parent.AppendElement element)
                      parsingIndex := idx1
                      inElement := false }

/-- `Parser.endElement` from `parser.go`: compare the end tag's qualified name
with the top of the stack; on a mismatch return an error string (which the
caller in `ParseElement` discards), on a match close the element.  `none`
models the panic when the stack index is out of range. -/
def Parser.endElement (p : Parser) (space localName : String) :
    Option (Parser × Option String) :=
  let n := xmlName space localName
  match stackGet p with
  | none => none
  | some top =>
    if top.name != n then
      some (p, some ("unexpected end element </" ++ n ++ ">"))
    else
      match p.closeElement with
      | none => none
      | some p1 => some (p1, none)

/-- The error values `ParseElement` can return: `ErrTooLargeStanza`,
`ErrStreamClosedByPeer`, and any error surfaced unchanged from the
tokenizer (modelled uniformly as `readError`). -/
inductive PError : Type where
  | tooLargeStanza : PError
  | streamClosedByPeer : PError
  | readError : PError
deriving DecidableEq, Repr

/-- The result of one `ParseElement` call: `ok` is Go's `(elem, nil)` return
(with the parser's post-state and the unconsumed tokens), `err` is `(nil,
err)`, and `panic` models a Go runtime panic from out-of-range slice
indexing. -/
inductive PResult : Type where
  | ok (elem : Option Element) (p : Parser) (rest : List (Token × Int)) : PResult
  | err (e : PError) (p : Parser) (rest : List (Token × Int)) : PResult
  | panic : PResult

/-- The `done:` label of `ParseElement`: commit the current input offset as
the new size-accounting baseline, hand out the pending element, and clear the
pending slot. -/
def doneRet (p : Parser) (off : Int) (rest : List (Token × Int)) : PResult :=
  .ok p.nextElement { p with lastOffset := off, nextElement := none } rest

/-- `ParseElement` from `parser.go`, driven by the modelled token stream.
Each list entry is a token together with `dec.InputOffset()` after reading
it; an exhausted list is a `RawToken` error, returned unchanged.  The loop:
size-limit check before classification, then the four-way token switch; note
that the error returned by `endElement` is discarded, exactly as in the
source. -/
def ParseElement : Parser → List (Token × Int) → PResult
  | p, [] => .err .readError p []
  | p, (t, off) :: rest =>
    if 0 < p.maxStanzaSize ∧ p.maxStanzaSize < off - p.lastOffset then
      .err .tooLargeStanza p rest
    else
      match t with
      | .procInst => .ok none p rest
      | .startElement sp lo attrs =>
        let p1 := p.startElement sp lo attrs
        if lo == streamName && sp == streamName then
          match p1.closeElement with
          | none => .panic
          | some p2 => doneRet p2 off rest
        else
          ParseElement p1 rest
      | .charData s =>
        if !p.inElement then .ok none p rest
        else
          match p.setElementText s with
          | none => .panic
          | some p1 => ParseElement p1 rest
      | .endElement sp lo =>
        if lo == streamName && sp == streamName then
          .err .streamClosedByPeer p rest
        else
          match p.endElement sp lo with
          | none => .panic
          | some (p1, _discardedErr) =>
            if p1.parsingIndex == rootElementIndex then doneRet p1 off rest
            else ParseElement p1 rest

/-- Driving loop: call `ParseElement` up to `n` times on a parser and its
token stream, collecting the results; a panic stops the drive. -/
def drive (p : Parser) (toks : List (Token × Int)) : Nat → List PResult
  | 0 => []
  | n + 1 =>
    match ParseElement p toks with
    | .panic => [.panic]
    | .ok e p1 rest => .ok e p1 rest :: drive p1 rest n
    | .err e p1 rest => .err e p1 rest :: drive p1 rest n

/-- Predicate: the size-limit check does not fire for a token read at input
offset `off` (either no positive maximum is configured, or the distance from
the last committed offset is within the budget). -/
def sizeOK (p : Parser) (off : Int) : Prop :=
  ¬(0 < p.maxStanzaSize ∧ p.maxStanzaSize < off - p.lastOffset)

instance (p : Parser) (off : Int) : Decidable (sizeOK p off) := by
  unfold sizeOK; infer_instance

/-- The parser invariant maintained across calls: the depth index points at
the top of the stack, and the in-element flag implies a nonnegative depth. -/
def Inv (p : Parser) : Prop :=
  p.parsingIndex + 1 = (p.parsingStack.length : Int) ∧
    (p.inElement = true → 0 ≤ p.parsingIndex)

/-- Setting the last slot of a list that ends the appended element. -/
theorem set_concat {α : Type} (l : List α) (a b : α) :
    (l ++ [a]).set l.length b = l ++ [b] := by
  induction l with
  | nil => rfl
  | cons x xs ih => simp [List.set, ih]

/-- Reading the stack top when the stack ends in `c` and the index points at
it. -/
theorem stackGet_concat (p : Parser) (l : List Element) (c : Element)
    (h1 : p.parsingStack = l ++ [c]) (h2 : p.parsingIndex = (l.length : Int)) :
    stackGet p = some c := by
  simp [stackGet, h1, h2, List.getElem?_concat_length]

/-- Closing the element at the top when it is the only stack entry: the
element becomes the pending result and the parser returns to the root
state. -/
theorem closeElement_root (p : Parser) (c : Element)
    (h1 : p.parsingStack = [c]) (h2 : p.parsingIndex = 0) :
    p.closeElement = some { p with parsingStack := [], parsingIndex := -1,
                                   nextElement := some c, inElement := false } := by
  have hg : stackGet p = some c := stackGet_concat p [] c (by simpa using h1) (by simpa using h2)
  simp [Parser.closeElement, hg, h1, h2, rootElementIndex]

/-- Closing the element at the top when an enclosing element remains: the
popped element is appended as the last child of the new top. -/
theorem closeElement_child (p : Parser) (l : List Element) (parent c : Element)
    (h1 : p.parsingStack = l ++ [parent, c])
    (h2 : p.parsingIndex = (l.length : Int) + 1) :
    p.closeElement = some { p with parsingStack := l ++ [parent.AppendElement c],
                                   parsingIndex := (l.length : Int),
                                   inElement := false } := by
  have hcat : p.parsingStack = (l ++ [parent]) ++ [c] := by simp [h1]
  have hidx : p.parsingIndex = ((l ++ [parent]).length : Int) := by
    simp [h2]
  have hg : stackGet p = some c := stackGet_concat p (l ++ [parent]) c hcat hidx
  have hne : ¬(p.parsingIndex - 1 = rootElementIndex) := by
    rw [h2]; unfold rootElementIndex; omega
  have htoNat : (p.parsingIndex - 1).toNat = l.length := by rw [h2]; omega
  have ht : p.parsingStack.take p.parsingIndex.toNat = l ++ [parent] := by
    rw [hcat, hidx, Int.toNat_natCast, List.take_left]
  have hp : (p.parsingStack.take p.parsingIndex.toNat)[(p.parsingIndex - 1).toNat]?
      = some parent := by
    rw [ht, htoNat, List.getElem?_concat_length]
  have hset : (p.parsingStack.take p.parsingIndex.toNat).set
      (p.parsingIndex - 1).toNat (parent.AppendElement c) = l ++ [parent.AppendElement c] := by
    rw [ht, htoNat, set_concat]
  have h3 : p.parsingIndex - 1 = (l.length : Int) := by rw [h2]; ring
  simp only [Parser.closeElement, hg, if_neg hne, hp, hset]
  rw [h3]

/-- A matching end tag at the top of a singleton stack: `endElement` reports
no error and closes the element back to the root state. -/
theorem endElement_match_root (p : Parser) (c : Element) (sp lo : String)
    (h1 : p.parsingStack = [c]) (h2 : p.parsingIndex = 0)
    (hn : c.name = xmlName sp lo) :
    p.endElement sp lo
      = some ({ p with parsingStack := [], parsingIndex := -1,
                       nextElement := some c, inElement := false }, none) := by
  have hg : stackGet p = some c := stackGet_concat p [] c (by simpa using h1) (by simpa using h2)
  simp [Parser.endElement, hg, hn, closeElement_root p c h1 h2]

/-- A matching end tag above an enclosing element: `endElement` reports no
error, pops the element and appends it to its parent. -/
theorem endElement_match_child (p : Parser) (l : List Element) (parent c : Element)
    (sp lo : String)
    (h1 : p.parsingStack = l ++ [parent, c])
    (h2 : p.parsingIndex = (l.length : Int) + 1)
    (hn : c.name = xmlName sp lo) :
    p.endElement sp lo
      = some ({ p with parsingStack := l ++ [parent.AppendElement c],
                       parsingIndex := (l.length : Int), inElement := false }, none) := by
  have hcat : p.parsingStack = (l ++ [parent]) ++ [c] := by simp [h1]
  have hidx : p.parsingIndex = ((l ++ [parent]).length : Int) := by simp [h2]
  have hg : stackGet p = some c := stackGet_concat p (l ++ [parent]) c hcat hidx
  simp [Parser.endElement, hg, hn, closeElement_child p l parent c h1 h2]

/-- A mismatched end tag: `endElement` leaves the parser unchanged and
returns the tag-mismatch error message (which `ParseElement` discards). -/
theorem endElement_mismatch (p : Parser) (l : List Element) (c : Element)
    (sp lo : String)
    (h1 : p.parsingStack = l ++ [c]) (h2 : p.parsingIndex = (l.length : Int))
    (hn : (c.name == xmlName sp lo) = false) :
    p.endElement sp lo
      = some (p, some ("unexpected end element </" ++ xmlName sp lo ++ ">")) := by
  have hg : stackGet p = some c := stackGet_concat p l c h1 h2
  have hbne : (c.name != xmlName sp lo) = true := by simp [bne, hn]
  simp [Parser.endElement, hg, hbne]

/-- An end tag with the stack index at the root sentinel: the Go code indexes
the stack at `-1`, a panic. -/
theorem endElement_bare (p : Parser) (sp lo : String)
    (h2 : p.parsingIndex = -1) :
    p.endElement sp lo = none := by
  have hg : stackGet p = none := by simp [stackGet, h2]
  simp [Parser.endElement, hg]

/-- Overwriting the text of the stack top when the stack ends in `c` and the
index points at it. -/
theorem setElementText_concat (p : Parser) (l : List Element) (c : Element) (s : String)
    (h1 : p.parsingStack = l ++ [c]) (h2 : p.parsingIndex = (l.length : Int)) :
    p.setElementText s = some { p with parsingStack := l ++ [c.withText s] } := by
  have hg : stackGet p = some c := stackGet_concat p l c h1 h2
  simp [Parser.setElementText, hg, h1, h2, set_concat]

/-- `closeElement` never changes the size configuration or the committed
offset baseline. -/
theorem closeElement_pres (p p1 : Parser) (h : p.closeElement = some p1) :
    p1.maxStanzaSize = p.maxStanzaSize ∧ p1.lastOffset = p.lastOffset := by
  unfold Parser.closeElement at h
  cases hg : stackGet p
  · rw [hg] at h; exact absurd h (by simp)
  · rw [hg] at h
    dsimp only at h
    by_cases hi : p.parsingIndex - 1 = rootElementIndex
    · rw [if_pos hi] at h
      injection h with h2; subst h2; exact ⟨rfl, rfl⟩
    · rw [if_neg hi] at h
      cases hp : (List.take p.parsingIndex.toNat p.parsingStack)[(p.parsingIndex - 1).toNat]?
      · rw [hp] at h; exact absurd h (by simp)
      · rw [hp] at h
        injection h with h2; subst h2; exact ⟨rfl, rfl⟩

/-- `endElement` never changes the size configuration or the committed
offset baseline. -/
theorem endElement_pres (p p1 : Parser) (sp lo : String) (msg : Option String)
    (h : p.endElement sp lo = some (p1, msg)) :
    p1.maxStanzaSize = p.maxStanzaSize ∧ p1.lastOffset = p.lastOffset := by
  unfold Parser.endElement at h
  cases hg : stackGet p
  · rw [hg] at h; exact absurd h (by simp)
  · next top =>
    rw [hg] at h
    dsimp only at h
    by_cases hb : (top.name != xmlName sp lo) = true
    · rw [if_pos hb] at h
      injection h with h2
      have h3 : p = p1 := congrArg Prod.fst h2
      subst h3; exact ⟨rfl, rfl⟩
    · rw [if_neg hb] at h
      cases hc : p.closeElement
      · rw [hc] at h; exact absurd h (by simp)
      · next p2 =>
        rw [hc] at h
        injection h with h2
        have h3 : p2 = p1 := congrArg Prod.fst h2
        subst h3
        exact closeElement_pres p p2 hc

/-- `setElementText` never changes the size configuration or the committed
offset baseline. -/
theorem setElementText_pres (p p1 : Parser) (s : String)
    (h : p.setElementText s = some p1) :
    p1.maxStanzaSize = p.maxStanzaSize ∧ p1.lastOffset = p.lastOffset := by
  unfold Parser.setElementText at h
  split at h
  · exact absurd h (by simp)
  · injection h with h2; subst h2; exact ⟨rfl, rfl⟩

/-- The size-limit check fires on any token, of any kind, read at an offset
that puts the in-flight unit over a positive configured budget: the call
fails with `ErrTooLargeStanza` before the token is classified. -/
theorem step_tooLarge (p : Parser) (t : Token) (off : Int) (rest : List (Token × Int))
    (h1 : 0 < p.maxStanzaSize) (h2 : p.maxStanzaSize < off - p.lastOffset) :
    ParseElement p ((t, off) :: rest) = .err .tooLargeStanza p rest := by
  rw [ParseElement.eq_def]
  dsimp only
  rw [if_pos ⟨h1, h2⟩]

/-- A processing instruction ends the call immediately with no element and
no state change. -/
theorem step_procInst (p : Parser) (off : Int) (rest : List (Token × Int))
    (hs : sizeOK p off) :
    ParseElement p ((Token.procInst, off) :: rest) = .ok none p rest := by
  rw [ParseElement.eq_def]
  dsimp only
  rw [if_neg hs]

/-- A start tag other than the reserved stream name pushes a fresh element
and continues the loop. -/
theorem step_start (p : Parser) (sp lo : String) (attrs : List RawAttr) (off : Int)
    (rest : List (Token × Int)) (hs : sizeOK p off)
    (hn : (lo == streamName && sp == streamName) = false) :
    ParseElement p ((Token.startElement sp lo attrs, off) :: rest)
      = ParseElement (p.startElement sp lo attrs) rest := by
  rw [ParseElement.eq_def]
  dsimp only
  rw [if_neg hs]
  rw [if_neg (by simp [hn])]

/-- Character data at the top level (the in-element flag is down): the call
returns `Ok(None)` immediately, consuming the token but changing no state. -/
theorem step_char_top (p : Parser) (s : String) (off : Int) (rest : List (Token × Int))
    (hs : sizeOK p off) (hin : p.inElement = false) :
    ParseElement p ((Token.charData s, off) :: rest) = .ok none p rest := by
  rw [ParseElement.eq_def]
  dsimp only
  rw [if_neg hs]
  rw [if_pos (by simp [hin])]

/-- Character data inside an element: the text of the stack top is
overwritten and the loop continues. -/
theorem step_char_in (p : Parser) (s : String) (off : Int) (rest : List (Token × Int))
    (l : List Element) (c : Element)
    (hs : sizeOK p off) (hin : p.inElement = true)
    (h1 : p.parsingStack = l ++ [c]) (h2 : p.parsingIndex = (l.length : Int)) :
    ParseElement p ((Token.charData s, off) :: rest)
      = ParseElement { p with parsingStack := l ++ [c.withText s] } rest := by
  rw [ParseElement.eq_def]
  dsimp only
  rw [if_neg hs]
  rw [if_neg (by simp [hin])]
  rw [setElementText_concat p l c s h1 h2]

/-- An end tag bearing the reserved stream name fails the call with
`ErrStreamClosedByPeer`, whatever the stack holds. -/
theorem step_end_streamTok (p : Parser) (off : Int) (rest : List (Token × Int))
    (hs : sizeOK p off) :
    ParseElement p ((Token.endElement streamName streamName, off) :: rest)
      = .err .streamClosedByPeer p rest := by
  rw [ParseElement.eq_def]
  dsimp only
  rw [if_neg hs]
  rw [if_pos (by simp)]

/-- A non-stream end tag arriving while the stack index is at the root
sentinel indexes the stack at `-1`: a panic. -/
theorem step_end_bare (p : Parser) (sp lo : String) (off : Int)
    (rest : List (Token × Int)) (hs : sizeOK p off)
    (hn : (lo == streamName && sp == streamName) = false)
    (h2 : p.parsingIndex = -1) :
    ParseElement p ((Token.endElement sp lo, off) :: rest) = .panic := by
  rw [ParseElement.eq_def]
  dsimp only
  rw [if_neg hs]
  rw [if_neg (by simp [hn])]
  rw [endElement_bare p sp lo h2]

/-- A mismatched non-stream end tag: the error computed by `endElement` is
discarded and the loop continues with the parser unchanged. -/
theorem step_end_mismatch (p : Parser) (sp lo : String) (off : Int)
    (rest : List (Token × Int)) (l : List Element) (c : Element)
    (hs : sizeOK p off)
    (hn : (lo == streamName && sp == streamName) = false)
    (h1 : p.parsingStack = l ++ [c]) (h2 : p.parsingIndex = (l.length : Int))
    (hm : (c.name == xmlName sp lo) = false) :
    ParseElement p ((Token.endElement sp lo, off) :: rest) = ParseElement p rest := by
  have hne : (p.parsingIndex == rootElementIndex) = false := by
    simp only [h2, rootElementIndex, beq_eq_false_iff_ne, ne_eq]
    omega
  rw [ParseElement.eq_def]
  dsimp only
  rw [if_neg hs]
  rw [if_neg (by simp [hn])]
  rw [endElement_mismatch p l c sp lo h1 h2 hm]
  dsimp only
  rw [if_neg (by simp [hne])]

/-- A matching non-stream end tag closing the only open element: the call
emits the completed element, returns to the root state and commits the
offset. -/
theorem step_end_match_root (p : Parser) (sp lo : String) (off : Int)
    (rest : List (Token × Int)) (c : Element)
    (hs : sizeOK p off)
    (hn : (lo == streamName && sp == streamName) = false)
    (h1 : p.parsingStack = [c]) (h2 : p.parsingIndex = 0)
    (hm : c.name = xmlName sp lo) :
    ParseElement p ((Token.endElement sp lo, off) :: rest)
      = .ok (some c) { p with parsingStack := [], parsingIndex := -1,
                              inElement := false, nextElement := none,
                              lastOffset := off } rest := by
  rw [ParseElement.eq_def]
  dsimp only
  rw [if_neg hs]
  rw [if_neg (by simp [hn])]
  rw [endElement_match_root p c sp lo h1 h2 hm]
  dsimp only
  rw [if_pos (by simp [rootElementIndex])]
  rfl

/-- A matching non-stream end tag closing a nested element: the element is
appended as the last child of its parent and the loop continues. -/
theorem step_end_match_child (p : Parser) (sp lo : String) (off : Int)
    (rest : List (Token × Int)) (l : List Element) (parent c : Element)
    (hs : sizeOK p off)
    (hn : (lo == streamName && sp == streamName) = false)
    (h1 : p.parsingStack = l ++ [parent, c])
    (h2 : p.parsingIndex = (l.length : Int) + 1)
    (hm : c.name = xmlName sp lo) :
    ParseElement p ((Token.endElement sp lo, off) :: rest)
      = ParseElement { p with parsingStack := l ++ [parent.AppendElement c],
                              parsingIndex := (l.length : Int),
                              inElement := false } rest := by
  have hne : ((l.length : Int) == rootElementIndex) = false := by
    simp only [rootElementIndex, beq_eq_false_iff_ne, ne_eq]
    omega
  rw [ParseElement.eq_def]
  dsimp only
  rw [if_neg hs]
  rw [if_neg (by simp [hn])]
  rw [endElement_match_child p l parent c sp lo h1 h2 hm]
  dsimp only
  rw [if_neg (by simp [hne])]

/-- The reserved stream-opening start tag at the top level: the element is
pushed, immediately closed, emitted as the call's result with no children
and empty text, and the offset committed. -/
theorem step_start_stream_root (p : Parser) (attrs : List RawAttr) (off : Int)
    (rest : List (Token × Int)) (hs : sizeOK p off)
    (h1 : p.parsingStack = []) (h2 : p.parsingIndex = -1) :
    ParseElement p ((Token.startElement streamName streamName attrs, off) :: rest)
      = .ok (some (startElementElem streamName streamName attrs))
          { p with parsingStack := [], parsingIndex := -1, inElement := false,
                   nextElement := none, lastOffset := off } rest := by
  have hst : (p.startElement streamName streamName attrs).parsingStack
      = [startElementElem streamName streamName attrs] := by
    simp [Parser.startElement, h1]
  have hsi : (p.startElement streamName streamName attrs).parsingIndex = 0 := by
    simp [Parser.startElement, h2]
  rw [ParseElement.eq_def]
  dsimp only
  rw [if_neg hs]
  rw [if_pos (by simp)]
  rw [closeElement_root _ _ hst hsi]
  rfl

/-- The reserved stream-opening start tag while inside an open element: the
synthetic element is pushed, immediately closed and appended as the last
child of the enclosing element, and the call returns through the `done:`
path — committing the offset — with the pending slot as its result. -/
theorem step_start_stream_child (p : Parser) (attrs : List RawAttr) (off : Int)
    (rest : List (Token × Int)) (l : List Element) (parent : Element)
    (hs : sizeOK p off)
    (h1 : p.parsingStack = l ++ [parent]) (h2 : p.parsingIndex = (l.length : Int)) :
    ParseElement p ((Token.startElement streamName streamName attrs, off) :: rest)
      = .ok p.nextElement
          { p with parsingStack :=
                     l ++ [parent.AppendElement (startElementElem streamName streamName attrs)],
                   parsingIndex := (l.length : Int), inElement := false,
                   nextElement := none, lastOffset := off } rest := by
  have hst : (p.startElement streamName streamName attrs).parsingStack
      = l ++ [parent, startElementElem streamName streamName attrs] := by
    simp [Parser.startElement, h1]
  have hsi : (p.startElement streamName streamName attrs).parsingIndex
      = (l.length : Int) + 1 := by
    simp [Parser.startElement, h2]
  rw [ParseElement.eq_def]
  dsimp only
  rw [if_neg hs]
  rw [if_pos (by simp)]
  rw [closeElement_child _ _ _ _ hst hsi]
  rfl

/-- Whether a parse result is the `ErrTooLargeStanza` failure. -/
def isTooLarge : PResult → Bool
  | .err .tooLargeStanza _ _ => true
  | _ => false

/-- With a nonpositive configured maximum stanza size the size-limit check is
disabled: no call ever fails with `ErrTooLargeStanza`, whatever the token
stream. -/
theorem parse_noTooLarge (toks : List (Token × Int)) :
    ∀ p : Parser, p.maxStanzaSize ≤ 0 → isTooLarge (ParseElement p toks) = false := by
  induction toks with
  | nil => intro p h; rfl
  | cons hd tl ih =>
    intro p h
    obtain ⟨t, off⟩ := hd
    rw [ParseElement.eq_def]
    dsimp only
    rw [if_neg (by omega : ¬(0 < p.maxStanzaSize ∧ p.maxStanzaSize < off - p.lastOffset))]
    cases t with
    | procInst => rfl
    | startElement sp lo attrs =>
      dsimp only
      by_cases hg : (lo == streamName && sp == streamName) = true
      · rw [if_pos hg]
        cases hcl : (p.startElement sp lo attrs).closeElement with
        | none => rfl
        | some p2 => rfl
      · rw [if_neg hg]
        exact ih _ (by simpa [Parser.startElement] using h)
    | charData s =>
      dsimp only
      by_cases hin : (!p.inElement) = true
      · rw [if_pos hin]; rfl
      · rw [if_neg hin]
        cases hst : p.setElementText s with
        | none => rfl
        | some p1 =>
          exact ih p1 (by rw [(setElementText_pres p p1 s hst).1]; exact h)
    | endElement sp lo =>
      dsimp only
      by_cases hg : (lo == streamName && sp == streamName) = true
      · rw [if_pos hg]; rfl
      · rw [if_neg hg]
        cases hee : p.endElement sp lo with
        | none => rfl
        | some pr =>
          obtain ⟨p1, msg⟩ := pr
          dsimp only
          by_cases hroot : (p1.parsingIndex == rootElementIndex) = true
          · rw [if_pos hroot]; rfl
          · rw [if_neg hroot]
            exact ih p1 (by rw [(endElement_pres p p1 sp lo msg hee).1]; exact h)

/-- When a call does fail with `ErrTooLargeStanza`, a positive maximum is
configured and some token of the stream was read at an offset strictly more
than the maximum past the committed baseline. -/
theorem parse_tooLarge_source (toks : List (Token × Int)) :
    ∀ p : Parser, isTooLarge (ParseElement p toks) = true →
      0 < p.maxStanzaSize ∧
        ∃ t2 off2, ((t2, off2) ∈ toks ∧ p.maxStanzaSize < off2 - p.lastOffset) := by
  induction toks with
  | nil => intro p h; exact absurd h (by simp [ParseElement, isTooLarge])
  | cons hd tl ih =>
    intro p h
    obtain ⟨t, off⟩ := hd
    rw [ParseElement.eq_def] at h
    dsimp only at h
    by_cases hguard : 0 < p.maxStanzaSize ∧ p.maxStanzaSize < off - p.lastOffset
    · exact ⟨hguard.1, t, off, by simp, hguard.2⟩
    · rw [if_neg hguard] at h
      have step : ∀ p1 : Parser, p1.maxStanzaSize = p.maxStanzaSize →
          p1.lastOffset = p.lastOffset → isTooLarge (ParseElement p1 tl) = true →
          0 < p.maxStanzaSize ∧
            ∃ t2 off2, ((t2, off2) ∈ (t, off) :: tl ∧ p.maxStanzaSize < off2 - p.lastOffset) := by
        intro p1 hmax hlast h1
        obtain ⟨hm, t2, off2, hmem, hlt⟩ := ih p1 h1
        rw [hmax] at hm
        rw [hmax, hlast] at hlt
        exact ⟨hm, t2, off2, by simp [hmem], hlt⟩
      cases t with
      | procInst => exact absurd h (by simp [isTooLarge])
      | startElement sp lo attrs =>
        dsimp only at h
        by_cases hg : (lo == streamName && sp == streamName) = true
        · rw [if_pos hg] at h
          cases hcl : (p.startElement sp lo attrs).closeElement with
          | none => rw [hcl] at h; exact absurd h (by simp [isTooLarge])
          | some p2 => rw [hcl] at h; exact absurd h (by simp [isTooLarge, doneRet])
        · rw [if_neg hg] at h
          exact step _ (by simp [Parser.startElement]) (by simp [Parser.startElement]) h
      | charData s =>
        dsimp only at h
        by_cases hin : (!p.inElement) = true
        · rw [if_pos hin] at h; exact absurd h (by simp [isTooLarge])
        · rw [if_neg hin] at h
          cases hst : p.setElementText s with
          | none => rw [hst] at h; exact absurd h (by simp [isTooLarge])
          | some p1 =>
            rw [hst] at h
            exact step p1 (setElementText_pres p p1 s hst).1
              (setElementText_pres p p1 s hst).2 h
      | endElement sp lo =>
        dsimp only at h
        by_cases hg : (lo == streamName && sp == streamName) = true
        · rw [if_pos hg] at h; exact absurd h (by simp [isTooLarge])
        · rw [if_neg hg] at h
          cases hee : p.endElement sp lo with
          | none => rw [hee] at h; exact absurd h (by simp [isTooLarge])
          | some pr =>
            obtain ⟨p1, msg⟩ := pr
            rw [hee] at h
            dsimp only at h
            by_cases hroot : (p1.parsingIndex == rootElementIndex) = true
            · rw [if_pos hroot] at h; exact absurd h (by simp [isTooLarge, doneRet])
            · rw [if_neg hroot] at h
              exact step p1 (endElement_pres p p1 sp lo msg hee).1
                (endElement_pres p p1 sp lo msg hee).2 h

/-- Every error return leaves the committed-offset baseline untouched: only
the `done:` path (which returns through `ok`) writes `lastOffset`. -/
theorem parse_err_lastOffset (toks : List (Token × Int)) :
    ∀ (p : Parser) (e : PError) (p1 : Parser) (r : List (Token × Int)),
      ParseElement p toks = .err e p1 r → p1.lastOffset = p.lastOffset := by
  induction toks with
  | nil =>
    intro p e p1 r h
    unfold ParseElement at h
    cases h
    rfl
  | cons hd tl ih =>
    intro p e p1 r h
    obtain ⟨t, off⟩ := hd
    rw [ParseElement.eq_def] at h
    dsimp only at h
    by_cases hguard : 0 < p.maxStanzaSize ∧ p.maxStanzaSize < off - p.lastOffset
    · rw [if_pos hguard] at h; cases h; rfl
    · rw [if_neg hguard] at h
      cases t with
      | procInst => exact absurd h (by simp)
      | startElement sp lo attrs =>
        dsimp only at h
        by_cases hg : (lo == streamName && sp == streamName) = true
        · rw [if_pos hg] at h
          cases hcl : (p.startElement sp lo attrs).closeElement with
          | none => rw [hcl] at h; exact absurd h (by simp)
          | some p2 => rw [hcl] at h; exact absurd h (by simp [doneRet])
        · rw [if_neg hg] at h
          have := ih _ e p1 r h
          simpa [Parser.startElement] using this
      | charData s =>
        dsimp only at h
        by_cases hin : (!p.inElement) = true
        · rw [if_pos hin] at h; exact absurd h (by simp)
        · rw [if_neg hin] at h
          cases hst : p.setElementText s with
          | none => rw [hst] at h; exact absurd h (by simp)
          | some p2 =>
            rw [hst] at h
            rw [ih p2 e p1 r h]
            exact (setElementText_pres p p2 s hst).2
      | endElement sp lo =>
        dsimp only at h
        by_cases hg : (lo == streamName && sp == streamName) = true
        · rw [if_pos hg] at h; cases h; rfl
        · rw [if_neg hg] at h
          cases hee : p.endElement sp lo with
          | none => rw [hee] at h; exact absurd h (by simp)
          | some pr =>
            obtain ⟨p2, msg⟩ := pr
            rw [hee] at h
            dsimp only at h
            by_cases hroot : (p2.parsingIndex == rootElementIndex) = true
            · rw [if_pos hroot] at h; exact absurd h (by simp [doneRet])
            · rw [if_neg hroot] at h
              rw [ih p2 e p1 r h]
              exact (endElement_pres p p2 sp lo msg hee).2

/-- The size-limit check never fires when no positive maximum is
configured. -/
theorem sizeOK_of_nonpos (p : Parser) (off : Int) (h : p.maxStanzaSize ≤ 0) :
    sizeOK p off := by
  unfold sizeOK; omega

/-- Folding the duplicate-dropping attribute insertion over a list whose
qualified names (together with the accumulator's) are distinct appends the
list unchanged. -/
theorem attributeSet_foldl (l : List Attribute) :
    ∀ acc : List Attribute, (((acc ++ l).map Attribute.name)).Nodup →
      l.foldl (fun acc a => acc.filter (fun b => b.name != a.name) ++ [a]) acc
        = acc ++ l := by
  induction l with
  | nil => intro acc h; simp
  | cons a l ih =>
    intro acc h
    have hnotin : a.name ∉ acc.map Attribute.name := by
      intro hmem
      rw [List.map_append, List.nodup_append] at h
      exact h.2.2 hmem (by simp)
    have hfilter : acc.filter (fun b => b.name != a.name) = acc := by
      rw [List.filter_eq_self]
      intro b hb
      simp only [bne_iff_ne, ne_eq]
      intro hcontra
      exact hnotin (hcontra ▸ List.mem_map_of_mem Attribute.name hb)
    rw [List.foldl_cons, hfilter, ih (acc ++ [a]) (by simpa using h)]
    simp

/-- On an attribute list with pairwise distinct qualified names,
`attributeSet` is the identity: source order and values are preserved. -/
theorem attributeSet_of_nodup (l : List Attribute)
    (h : (l.map Attribute.name).Nodup) : attributeSet l = l := by
  simpa using attributeSet_foldl l [] (by simpa using h)

/-- Appending a list of children one at a time (the fold the parser performs
through repeated `AppendElement` calls). -/
def appendAll (e : Element) (es : List Element) : Element :=
  es.foldl Element.AppendElement e

theorem appendAll_mk (n : String) (a : List Attribute) (t : String)
    (es l : List Element) :
    appendAll (Element.mk n a t es) l = Element.mk n a t (es ++ l) := by
  induction l generalizing es with
  | nil => simp [appendAll]
  | cons c l ih =>
    simp only [appendAll, List.foldl_cons, Element.AppendElement]
    rw [show List.foldl Element.AppendElement (Element.mk n a t (es ++ [c])) l
          = appendAll (Element.mk n a t (es ++ [c])) l from rfl, ih]
    simp

/-- A well-formed XML element as fed to the parser: namespace prefix, local
name, raw attributes, text (delivered directly after the start tag), and
children in document order. -/
inductive XTree : Type where
  | node (space localName : String) (attrs : List RawAttr) (text : String)
         (children : List XTree) : XTree

mutual

/-- The token stream the tokenizer produces for a tree: start tag, one
character-data token, the children's tokens, then the matching end tag (all
offsets zero; they are irrelevant once the size check is disabled). -/
def treeToks : XTree → List (Token × Int)
  | .node sp lo attrs text ch =>
    (Token.startElement sp lo attrs, 0) :: (Token.charData text, 0) ::
      (forestToks ch ++ [(Token.endElement sp lo, 0)])

/-- Token stream of a list of sibling trees, in document order. -/
def forestToks : List XTree → List (Token × Int)
  | [] => []
  | t :: ts => treeToks t ++ forestToks ts

end

mutual

/-- The element a tree denotes: qualified name, attributes in source order,
text, children in document order. -/
def elemOf : XTree → Element
  | .node sp lo attrs text ch =>
    .mk (xmlName sp lo) (attrs.map fun a => ⟨xmlName a.space a.localName, a.value⟩)
      text (forestElems ch)

/-- Elements denoted by a list of sibling trees. -/
def forestElems : List XTree → List Element
  | [] => []
  | t :: ts => elemOf t :: forestElems ts

end

mutual

/-- Well-formedness of an input tree: no tag carries the reserved stream
name, and each tag's attribute names are pairwise distinct (as XML
requires). -/
def treeWF : XTree → Bool
  | .node sp lo attrs _ ch =>
    !(lo == streamName && sp == streamName)
      && decide ((attrs.map fun a => xmlName a.space a.localName).Nodup)
      && forestWF ch

/-- Well-formedness of a list of sibling trees. -/
def forestWF : List XTree → Bool
  | [] => true
  | t :: ts => treeWF t && forestWF ts

end

/-- Parser state after assembling a forest of siblings as children of the
stack top: unchanged for an empty forest, otherwise the children are
appended to the top element and the in-element flag is down. -/
def afterF (p : Parser) (l : List Element) (e : Element) (ts : List XTree) : Parser :=
  match ts with
  | [] => p
  | _ :: _ => { p with parsingStack := l ++ [appendAll e (forestElems ts)]
                       inElement := false }

theorem appendAll_cons (e x : Element) (l : List Element) :
    appendAll e (x :: l) = appendAll (e.AppendElement x) l := rfl

mutual

/-- Parsing the token stream of one well-formed tree from inside an open
element appends exactly the tree's denoted element as the last child of the
stack top and clears the in-element flag, leaving everything else
unchanged. -/
theorem parse_tree (t : XTree) :
    ∀ (p : Parser) (l : List Element) (e : Element) (rest : List (Token × Int)),
      p.maxStanzaSize ≤ 0 → treeWF t = true →
      p.parsingStack = l ++ [e] → p.parsingIndex = (l.length : Int) →
      ParseElement p (treeToks t ++ rest)
        = ParseElement { p with parsingStack := l ++ [e.AppendElement (elemOf t)]
                                inElement := false } rest := by
  cases t with
  | node sp lo attrs tx ch =>
    intro p l e rest hmax hwf h1 h2
    simp only [treeWF, Bool.and_eq_true] at hwf
    obtain ⟨⟨hstr, hnd⟩, hch⟩ := hwf
    have hstream : (lo == streamName && sp == streamName) = false := by
      revert hstr; cases (lo == streamName && sp == streamName) <;> simp
    have hnodup : ((attrs.map fun a =>
        (⟨xmlName a.space a.localName, a.value⟩ : Attribute)).map Attribute.name).Nodup := by
      rw [List.map_map]
      exact of_decide_eq_true hnd
    have hset : attributeSet (attrs.map fun a => ⟨xmlName a.space a.localName, a.value⟩)
        = attrs.map fun a => ⟨xmlName a.space a.localName, a.value⟩ :=
      attributeSet_of_nodup _ hnodup
    have hE1 : (startElementElem sp lo attrs).withText tx
        = Element.mk (xmlName sp lo)
            (attrs.map fun a => ⟨xmlName a.space a.localName, a.value⟩) tx [] := by
      simp [startElementElem, Element.withText, hset]
    have hts : treeToks (XTree.node sp lo attrs tx ch) ++ rest
        = (Token.startElement sp lo attrs, 0) ::
            ((Token.charData tx, 0) ::
              (forestToks ch ++ ((Token.endElement sp lo, 0) :: rest))) := by
      simp [treeToks]
    rw [hts]
    rw [step_start p sp lo attrs 0 _ (sizeOK_of_nonpos p 0 hmax) hstream]
    have hp1max : (p.startElement sp lo attrs).maxStanzaSize ≤ 0 := hmax
    have hp1in : (p.startElement sp lo attrs).inElement = true := rfl
    have hp1stack : (p.startElement sp lo attrs).parsingStack
        = (l ++ [e]) ++ [startElementElem sp lo attrs] := by
      simp [Parser.startElement, h1]
    have hp1idx : (p.startElement sp lo attrs).parsingIndex
        = ((l ++ [e]).length : Int) := by
      have hproj : (p.startElement sp lo attrs).parsingIndex = p.parsingIndex + 1 := rfl
      rw [hproj, h2]
      simp
    rw [step_char_in _ tx 0 _ (l ++ [e]) (startElementElem sp lo attrs)
          (sizeOK_of_nonpos _ 0 hp1max) hp1in hp1stack hp1idx]
    set p2 : Parser :=
      { p.startElement sp lo attrs with
          parsingStack := (l ++ [e]) ++ [(startElementElem sp lo attrs).withText tx] }
      with hp2
    have hp2max : p2.maxStanzaSize ≤ 0 := hmax
    have hp2stack : p2.parsingStack
        = (l ++ [e]) ++ [(startElementElem sp lo attrs).withText tx] := rfl
    have hp2idx : p2.parsingIndex = ((l ++ [e]).length : Int) := hp1idx
    rw [parse_forest ch p2 (l ++ [e]) ((startElementElem sp lo attrs).withText tx)
          ((Token.endElement sp lo, 0) :: rest) hp2max hch hp2stack hp2idx]
    cases ch with
    | nil =>
      have haf : afterF p2 (l ++ [e]) ((startElementElem sp lo attrs).withText tx) [] = p2 := rfl
      rw [haf]
      have hstk : p2.parsingStack
          = l ++ [e, (startElementElem sp lo attrs).withText tx] := by
        rw [hp2stack]; simp
      have hidx : p2.parsingIndex = (l.length : Int) + 1 := by
        rw [hp2idx]; simp
      have hname : ((startElementElem sp lo attrs).withText tx).name = xmlName sp lo := by
        simp [hE1, Element.name]
      rw [step_end_match_child p2 sp lo 0 rest l e _
            (sizeOK_of_nonpos _ 0 hp2max) hstream hstk hidx hname]
      congr 1
      simp only [hp2, Parser.startElement, elemOf, forestElems, hE1, h2]
    | cons c0 ch2 =>
      have haf : afterF p2 (l ++ [e]) ((startElementElem sp lo attrs).withText tx) (c0 :: ch2)
          = { p2 with
                parsingStack := (l ++ [e]) ++
                  [appendAll ((startElementElem sp lo attrs).withText tx)
                     (forestElems (c0 :: ch2))]
                inElement := false } := rfl
      rw [haf]
      have hC : appendAll ((startElementElem sp lo attrs).withText tx)
            (forestElems (c0 :: ch2))
          = Element.mk (xmlName sp lo)
              (attrs.map fun a => ⟨xmlName a.space a.localName, a.value⟩) tx
              (forestElems (c0 :: ch2)) := by
        rw [hE1, appendAll_mk]
        simp
      have hstk : ({ p2 with
              parsingStack := (l ++ [e]) ++
                [appendAll ((startElementElem sp lo attrs).withText tx)
                   (forestElems (c0 :: ch2))]
              inElement := false } : Parser).parsingStack
          = l ++ [e, appendAll ((startElementElem sp lo attrs).withText tx)
                      (forestElems (c0 :: ch2))] := by
        simp
      have hidx : ({ p2 with
              parsingStack := (l ++ [e]) ++
                [appendAll ((startElementElem sp lo attrs).withText tx)
                   (forestElems (c0 :: ch2))]
              inElement := false } : Parser).parsingIndex = (l.length : Int) + 1 := by
        have hproj : ({ p2 with
              parsingStack := (l ++ [e]) ++
                [appendAll ((startElementElem sp lo attrs).withText tx)
                   (forestElems (c0 :: ch2))]
              inElement := false } : Parser).parsingIndex = p2.parsingIndex := rfl
        rw [hproj, hp2idx]; simp
      have hname : (appendAll ((startElementElem sp lo attrs).withText tx)
            (forestElems (c0 :: ch2))).name = xmlName sp lo := by
        simp [hC, Element.name]
      rw [step_end_match_child
            { p2 with
                parsingStack := (l ++ [e]) ++
                  [appendAll ((startElementElem sp lo attrs).withText tx)
                     (forestElems (c0 :: ch2))]
                inElement := false }
            sp lo 0 rest l e _
            (sizeOK_of_nonpos _ 0 hp2max) hstream hstk hidx hname]
      congr 1
      simp only [hp2, Parser.startElement, elemOf, hC, h2]

/-- Parsing the token streams of a list of well-formed sibling trees from
inside an open element appends exactly their denoted elements, in order, as
children of the stack top. -/
theorem parse_forest (ts : List XTree) :
    ∀ (p : Parser) (l : List Element) (e : Element) (rest : List (Token × Int)),
      p.maxStanzaSize ≤ 0 → forestWF ts = true →
      p.parsingStack = l ++ [e] → p.parsingIndex = (l.length : Int) →
      ParseElement p (forestToks ts ++ rest)
        = ParseElement (afterF p l e ts) rest := by
  cases ts with
  | nil => intro p l e rest _ _ _ _; rfl
  | cons t ts2 =>
    intro p l e rest hmax hwf h1 h2
    simp only [forestWF, Bool.and_eq_true] at hwf
    obtain ⟨hwt, hwts⟩ := hwf
    have hsplit : forestToks (t :: ts2) ++ rest
        = treeToks t ++ (forestToks ts2 ++ rest) := by
      simp [forestToks]
    rw [hsplit, parse_tree t p l e _ hmax hwt h1 h2]
    rw [parse_forest ts2
          { p with parsingStack := l ++ [e.AppendElement (elemOf t)]
                   inElement := false }
          l (e.AppendElement (elemOf t)) rest hmax hwts rfl h2]
    congr 1
    cases ts2 with
    | nil =>
      simp [afterF, forestElems, appendAll]
    | cons t1 ts3 =>
      simp only [afterF, forestElems, appendAll_cons]

end

/-- Parsing the token stream of one well-formed tree from the between-units
root state emits exactly the tree's denoted element, commits the offset, and
returns to the root state, leaving the remaining tokens unconsumed. -/
theorem parse_top (t : XTree) :
    ∀ (p : Parser) (rest : List (Token × Int)),
      p.maxStanzaSize ≤ 0 → treeWF t = true →
      p.parsingStack = [] → p.parsingIndex = -1 →
      ParseElement p (treeToks t ++ rest)
        = .ok (some (elemOf t))
            { p with lastOffset := 0, nextElement := none, inElement := false } rest := by
  cases t with
  | node sp lo attrs tx ch =>
    intro p rest hmax hwf h1 h2
    simp only [treeWF, Bool.and_eq_true] at hwf
    obtain ⟨⟨hstr, hnd⟩, hch⟩ := hwf
    have hstream : (lo == streamName && sp == streamName) = false := by
      revert hstr; cases (lo == streamName && sp == streamName) <;> simp
    have hnodup : ((attrs.map fun a =>
        (⟨xmlName a.space a.localName, a.value⟩ : Attribute)).map Attribute.name).Nodup := by
      rw [List.map_map]
      exact of_decide_eq_true hnd
    have hset : attributeSet (attrs.map fun a => ⟨xmlName a.space a.localName, a.value⟩)
        = attrs.map fun a => ⟨xmlName a.space a.localName, a.value⟩ :=
      attributeSet_of_nodup _ hnodup
    have hE1 : (startElementElem sp lo attrs).withText tx
        = Element.mk (xmlName sp lo)
            (attrs.map fun a => ⟨xmlName a.space a.localName, a.value⟩) tx [] := by
      simp [startElementElem, Element.withText, hset]
    have hts : treeToks (XTree.node sp lo attrs tx ch) ++ rest
        = (Token.startElement sp lo attrs, 0) ::
            ((Token.charData tx, 0) ::
              (forestToks ch ++ ((Token.endElement sp lo, 0) :: rest))) := by
      simp [treeToks]
    rw [hts]
    rw [step_start p sp lo attrs 0 _ (sizeOK_of_nonpos p 0 hmax) hstream]
    have hp1max : (p.startElement sp lo attrs).maxStanzaSize ≤ 0 := hmax
    have hp1in : (p.startElement sp lo attrs).inElement = true := rfl
    have hp1stack : (p.startElement sp lo attrs).parsingStack
        = [] ++ [startElementElem sp lo attrs] := by
      simp [Parser.startElement, h1]
    have hp1idx : (p.startElement sp lo attrs).parsingIndex
        = ((List.length ([] : List Element) : Nat) : Int) := by
      have hproj : (p.startElement sp lo attrs).parsingIndex = p.parsingIndex + 1 := rfl
      rw [hproj, h2]
      decide
    rw [step_char_in _ tx 0 _ [] (startElementElem sp lo attrs)
          (sizeOK_of_nonpos _ 0 hp1max) hp1in hp1stack hp1idx]
    set p2 : Parser :=
      { p.startElement sp lo attrs with
          parsingStack := [] ++ [(startElementElem sp lo attrs).withText tx] }
      with hp2
    have hp2max : p2.maxStanzaSize ≤ 0 := hmax
    have hp2stack : p2.parsingStack
        = [] ++ [(startElementElem sp lo attrs).withText tx] := rfl
    have hp2idx : p2.parsingIndex = ((List.length ([] : List Element) : Nat) : Int) := hp1idx
    rw [parse_forest ch p2 [] ((startElementElem sp lo attrs).withText tx)
          ((Token.endElement sp lo, 0) :: rest) hp2max hch hp2stack hp2idx]
    cases ch with
    | nil =>
      have haf : afterF p2 [] ((startElementElem sp lo attrs).withText tx) [] = p2 := rfl
      rw [haf]
      have hstk : p2.parsingStack = [(startElementElem sp lo attrs).withText tx] := rfl
      have hidx : p2.parsingIndex = 0 := by rw [hp2idx]; decide
      have hname : ((startElementElem sp lo attrs).withText tx).name = xmlName sp lo := by
        simp [hE1, Element.name]
      rw [step_end_match_root p2 sp lo 0 rest _
            (sizeOK_of_nonpos _ 0 hp2max) hstream hstk hidx hname]
      simp only [hp2, Parser.startElement, elemOf, forestElems, hE1, h1, h2]
    | cons c0 ch2 =>
      have haf : afterF p2 [] ((startElementElem sp lo attrs).withText tx) (c0 :: ch2)
          = { p2 with
                parsingStack := [] ++
                  [appendAll ((startElementElem sp lo attrs).withText tx)
                     (forestElems (c0 :: ch2))]
                inElement := false } := rfl
      rw [haf]
      have hC : appendAll ((startElementElem sp lo attrs).withText tx)
            (forestElems (c0 :: ch2))
          = Element.mk (xmlName sp lo)
              (attrs.map fun a => ⟨xmlName a.space a.localName, a.value⟩) tx
              (forestElems (c0 :: ch2)) := by
        rw [hE1, appendAll_mk]
        simp
      have hstk : ({ p2 with
              parsingStack := [] ++
                [appendAll ((startElementElem sp lo attrs).withText tx)
                   (forestElems (c0 :: ch2))]
              inElement := false } : Parser).parsingStack
          = [appendAll ((startElementElem sp lo attrs).withText tx)
               (forestElems (c0 :: ch2))] := rfl
      have hidx : ({ p2 with
              parsingStack := [] ++
                [appendAll ((startElementElem sp lo attrs).withText tx)
                   (forestElems (c0 :: ch2))]
              inElement := false } : Parser).parsingIndex = 0 := by
        have hproj : ({ p2 with
              parsingStack := [] ++
                [appendAll ((startElementElem sp lo attrs).withText tx)
                   (forestElems (c0 :: ch2))]
              inElement := false } : Parser).parsingIndex = p2.parsingIndex := rfl
        rw [hproj, hp2idx]; decide
      have hname : (appendAll ((startElementElem sp lo attrs).withText tx)
            (forestElems (c0 :: ch2))).name = xmlName sp lo := by
        simp [hC, Element.name]
      rw [step_end_match_root
            { p2 with
                parsingStack := [] ++
                  [appendAll ((startElementElem sp lo attrs).withText tx)
                     (forestElems (c0 :: ch2))]
                inElement := false }
            sp lo 0 rest _
            (sizeOK_of_nonpos _ 0 hp2max) hstream hstk hidx hname]
      simp only [hp2, Parser.startElement, elemOf, hC, h1, h2]

/-- Under the stack/index part of the parser invariant, a nonnegative index
reads an element off the stack: the Go access `parsingStack[parsingIndex]`
is in range. -/
theorem stackGet_isSome (p : Parser)
    (h1 : p.parsingIndex + 1 = (p.parsingStack.length : Int))
    (h0 : 0 ≤ p.parsingIndex) : ∃ e, stackGet p = some e := by
  have hlt : p.parsingIndex.toNat < p.parsingStack.length := by omega
  refine ⟨p.parsingStack[p.parsingIndex.toNat], ?_⟩
  unfold stackGet
  rw [if_neg (by omega : ¬p.parsingIndex < 0)]
  exact List.getElem?_eq_getElem hlt

/-- `startElement` preserves the parser invariant: the push and the index
increment move together, and the new index is nonnegative. -/
theorem Inv_startElement (p : Parser) (sp lo : String) (attrs : List RawAttr)
    (h : Inv p) : Inv (p.startElement sp lo attrs) := by
  have h1 := h.1
  refine ⟨?_, ?_⟩
  · show p.parsingIndex + 1 + 1
      = ((p.parsingStack ++ [startElementElem sp lo attrs]).length : Int)
    rw [List.length_append, List.length_singleton]
    omega
  · intro _
    show 0 ≤ p.parsingIndex + 1
    omega

/-- Under the invariant's length equation, `closeElement` at a nonnegative
index never hits an out-of-range access: both the pop and, in the nested
case, the parent lookup are in range. -/
theorem closeElement_isSome (p : Parser)
    (h1 : p.parsingIndex + 1 = (p.parsingStack.length : Int))
    (h0 : 0 ≤ p.parsingIndex) :
    ∃ p1, p.closeElement = some p1 := by
  obtain ⟨e, hg⟩ := stackGet_isSome p h1 h0
  unfold Parser.closeElement
  rw [hg]
  dsimp only
  by_cases hr : p.parsingIndex - 1 = rootElementIndex
  · rw [if_pos hr]
    exact ⟨_, rfl⟩
  · rw [if_neg hr]
    have hge1 : 1 ≤ p.parsingIndex := by
      unfold rootElementIndex at hr
      omega
    have hlt : (p.parsingIndex - 1).toNat
        < (p.parsingStack.take p.parsingIndex.toNat).length := by
      rw [List.length_take]
      omega
    rw [List.getElem?_eq_getElem hlt]
    exact ⟨_, rfl⟩

/-- A successful `closeElement` reestablishes the parser invariant: the pop
and the index decrement move together and the in-element flag is down. -/
theorem closeElement_Inv (p p1 : Parser)
    (h1 : p.parsingIndex + 1 = (p.parsingStack.length : Int))
    (h : p.closeElement = some p1) : Inv p1 := by
  unfold Parser.closeElement at h
  cases hg : stackGet p
  · rw [hg] at h; exact absurd h (by simp)
  · rw [hg] at h
    dsimp only at h
    have h0 : 0 ≤ p.parsingIndex := by
      by_contra hc
      rw [show stackGet p = none from by
            unfold stackGet; rw [if_pos (by omega)]] at hg
      exact absurd hg (by simp)
    by_cases hr : p.parsingIndex - 1 = rootElementIndex
    · rw [if_pos hr] at h
      injection h with h2
      subst h2
      refine ⟨?_, ?_⟩
      · show p.parsingIndex - 1 + 1
          = ((p.parsingStack.take p.parsingIndex.toNat).length : Int)
        rw [List.length_take]
        unfold rootElementIndex at hr
        omega
      · intro hh; simp at hh
    · rw [if_neg hr] at h
      cases hp : (p.parsingStack.take p.parsingIndex.toNat)[(p.parsingIndex - 1).toNat]?
      · rw [hp] at h; exact absurd h (by simp)
      · rw [hp] at h
        injection h with h2
        subst h2
        refine ⟨?_, ?_⟩
        · show p.parsingIndex - 1 + 1
            = (((p.parsingStack.take p.parsingIndex.toNat).set
                  (p.parsingIndex - 1).toNat _).length : Int)
          rw [List.length_set, List.length_take]
          unfold rootElementIndex at hr
          omega
        · intro hh; simp at hh

/-- Under the invariant, `setElementText` with a nonnegative index
succeeds. -/
theorem setElementText_isSome (p : Parser) (s : String)
    (h1 : p.parsingIndex + 1 = (p.parsingStack.length : Int))
    (h0 : 0 ≤ p.parsingIndex) :
    ∃ p1, p.setElementText s = some p1 := by
  obtain ⟨e, hg⟩ := stackGet_isSome p h1 h0
  unfold Parser.setElementText
  rw [hg]
  exact ⟨_, rfl⟩

/-- A successful `setElementText` preserves the parser invariant: the
in-place overwrite keeps the stack length, index and flag. -/
theorem setElementText_Inv (p p1 : Parser) (s : String)
    (h1 : p.parsingIndex + 1 = (p.parsingStack.length : Int))
    (hin : p.inElement = true → 0 ≤ p.parsingIndex)
    (h : p.setElementText s = some p1) : Inv p1 := by
  unfold Parser.setElementText at h
  cases hg : stackGet p
  · rw [hg] at h; exact absurd h (by simp)
  · rw [hg] at h
    dsimp only at h
    injection h with h2
    subst h2
    refine ⟨?_, ?_⟩
    · show p.parsingIndex + 1
        = ((p.parsingStack.set p.parsingIndex.toNat _).length : Int)
      rw [List.length_set]
      exact h1
    · exact hin

/-- Under the invariant, `endElement` at a nonnegative index succeeds (no
out-of-range access), whether the tag matches or not, and its resulting
parser satisfies the invariant again. -/
theorem endElement_total (p : Parser) (sp lo : String)
    (h1 : p.parsingIndex + 1 = (p.parsingStack.length : Int))
    (h0 : 0 ≤ p.parsingIndex) :
    ∃ p1 msg, p.endElement sp lo = some (p1, msg) ∧ Inv p1 := by
  obtain ⟨top, hg⟩ := stackGet_isSome p h1 h0
  unfold Parser.endElement
  rw [hg]
  dsimp only
  by_cases hb : (top.name != xmlName sp lo) = true
  · rw [if_pos hb]
    exact ⟨p, _, rfl, h1, fun _ => h0⟩
  · rw [if_neg hb]
    obtain ⟨p1, hcl⟩ := closeElement_isSome p h1 h0
    rw [hcl]
    exact ⟨p1, none, rfl, closeElement_Inv p p1 h1 hcl⟩

/-- Sequence-level totality: from any state satisfying the parser invariant,
a `ParseElement` call over any token sequence can panic only because a
non-stream end-element token — heading some suffix of the input — was
processed with the stack empty (index at the root sentinel); the call's
value factors through exactly that bare-end step, which performs the
out-of-range access.  Every other token is handled without any
out-of-range stack access. -/
theorem parse_panic_source (toks : List (Token × Int)) :
    ∀ p : Parser, Inv p → ParseElement p toks = PResult.panic →
      ∃ (sp lo : String) (off : Int) (rest : List (Token × Int)) (p1 : Parser),
        ((Token.endElement sp lo, off) :: rest) <:+ toks ∧
        Inv p1 ∧ p1.parsingIndex = -1 ∧
        (lo == streamName && sp == streamName) = false ∧
        ParseElement p toks = ParseElement p1 ((Token.endElement sp lo, off) :: rest) ∧
        ParseElement p1 ((Token.endElement sp lo, off) :: rest) = PResult.panic := by
  induction toks with
  | nil => intro p _ h; exact absurd h (by simp [ParseElement])
  | cons hd tl ih =>
    intro p hinv h
    obtain ⟨t, off⟩ := hd
    rw [ParseElement.eq_def] at h
    dsimp only at h
    by_cases hguard : 0 < p.maxStanzaSize ∧ p.maxStanzaSize < off - p.lastOffset
    · rw [if_pos hguard] at h; exact absurd h (by simp)
    · rw [if_neg hguard] at h
      cases t with
      | procInst => exact absurd h (by simp)
      | startElement sp lo attrs =>
        dsimp only at h
        by_cases hg : (lo == streamName && sp == streamName) = true
        · rw [if_pos hg] at h
          have hidx0 : 0 ≤ (p.startElement sp lo attrs).parsingIndex := by
            have := hinv.1
            show 0 ≤ p.parsingIndex + 1
            omega
          obtain ⟨p2, hcl⟩ := closeElement_isSome (p.startElement sp lo attrs)
            (Inv_startElement p sp lo attrs hinv).1 hidx0
          rw [hcl] at h
          exact absurd h (by simp [doneRet])
        · rw [if_neg hg] at h
          have hgf : (lo == streamName && sp == streamName) = false := by
            revert hg; cases (lo == streamName && sp == streamName) <;> simp
          have hstep : ParseElement p ((Token.startElement sp lo attrs, off) :: tl)
              = ParseElement (p.startElement sp lo attrs) tl :=
            step_start p sp lo attrs off tl hguard hgf
          obtain ⟨sp2, lo2, off2, rest2, p9, hsuf, hinv9, hidx9, hn9, hfac, hpk⟩ :=
            ih (p.startElement sp lo attrs) (Inv_startElement p sp lo attrs hinv) h
          exact ⟨sp2, lo2, off2, rest2, p9, hsuf.trans (List.suffix_cons _ _),
                 hinv9, hidx9, hn9, hstep.trans hfac, hpk⟩
      | charData s =>
        dsimp only at h
        by_cases hin : (!p.inElement) = true
        · rw [if_pos hin] at h; exact absurd h (by simp)
        · rw [if_neg hin] at h
          have hintrue : p.inElement = true := by
            revert hin; cases p.inElement <;> simp
          obtain ⟨p1, hst⟩ := setElementText_isSome p s hinv.1 (hinv.2 hintrue)
          rw [hst] at h
          have hinv1 : Inv p1 := setElementText_Inv p p1 s hinv.1 hinv.2 hst
          have hstep : ParseElement p ((Token.charData s, off) :: tl)
              = ParseElement p1 tl := by
            rw [ParseElement.eq_def]
            dsimp only
            rw [if_neg hguard]
            rw [if_neg hin]
            rw [hst]
          obtain ⟨sp2, lo2, off2, rest2, p9, hsuf, hinv9, hidx9, hn9, hfac, hpk⟩ :=
            ih p1 hinv1 h
          exact ⟨sp2, lo2, off2, rest2, p9, hsuf.trans (List.suffix_cons _ _),
                 hinv9, hidx9, hn9, hstep.trans hfac, hpk⟩
      | endElement sp lo =>
        dsimp only at h
        by_cases hg : (lo == streamName && sp == streamName) = true
        · rw [if_pos hg] at h; exact absurd h (by simp)
        · rw [if_neg hg] at h
          have hgf : (lo == streamName && sp == streamName) = false := by
            revert hg; cases (lo == streamName && sp == streamName) <;> simp
          by_cases h0 : 0 ≤ p.parsingIndex
          · obtain ⟨p1, msg, hee, hinv1⟩ := endElement_total p sp lo hinv.1 h0
            rw [hee] at h
            dsimp only at h
            by_cases hroot : (p1.parsingIndex == rootElementIndex) = true
            · rw [if_pos hroot] at h; exact absurd h (by simp [doneRet])
            · rw [if_neg hroot] at h
              have hstep : ParseElement p ((Token.endElement sp lo, off) :: tl)
                  = ParseElement p1 tl := by
                rw [ParseElement.eq_def]
                dsimp only
                rw [if_neg hguard]
                rw [if_neg hg]
                rw [hee]
                dsimp only
                rw [if_neg hroot]
              obtain ⟨sp2, lo2, off2, rest2, p9, hsuf, hinv9, hidx9, hn9, hfac, hpk⟩ :=
                ih p1 hinv1 h
              exact ⟨sp2, lo2, off2, rest2, p9, hsuf.trans (List.suffix_cons _ _),
                     hinv9, hidx9, hn9, hstep.trans hfac, hpk⟩
          · have hidx : p.parsingIndex = -1 := by
              have := hinv.1
              omega
            refine ⟨sp, lo, off, tl, p, List.suffix_refl _, hinv, hidx, hgf, rfl, ?_⟩
            exact step_end_bare p sp lo off tl hguard hgf hidx

/-- Token stream of the input `<a><b></a>` (mismatched end tag), offsets as a
tokenizer would report them. -/
def c1toks : List (Token × Int) :=
  [(Token.startElement "" "a" [], 3), (Token.startElement "" "b" [], 6),
   (Token.endElement "" "a", 10)]

/-- Claim C1: reading an end-element token whose qualified name mismatches
the top of the stack must fail the call with a tag-mismatch error.  The code
violates this: on `<a><b></a>`, `endElement` does detect the mismatch and
returns the tag-mismatch error, but `ParseElement` discards that return
value, keeps reading, and the call ends with the tokenizer's read error —
never a malformed-stanza failure — leaving the mismatched tree on the
stack. -/
theorem C1_mismatch_error_discarded :
    Parser.endElement
        ⟨none, 1, [Element.mk "a" [] "" [], Element.mk "b" [] "" []], true, 0, 0⟩ "" "a"
      = some (⟨none, 1, [Element.mk "a" [] "" [], Element.mk "b" [] "" []], true, 0, 0⟩,
              some "unexpected end element </a>")
    ∧ ParseElement (NewParser 0) c1toks
      = .err .readError
          ⟨none, 1, [Element.mk "a" [] "" [], Element.mk "b" [] "" []], true, 0, 0⟩ [] :=
  ⟨rfl, rfl⟩

/-- Claim C2: with a positive configured maximum, a call fails with
`ErrTooLargeStanza` exactly when some token is read at an offset exceeding
the budget past the committed baseline, the check firing on each token
before classification; a nonpositive maximum disables the check, and with it
disabled arbitrarily large well-formed elements parse successfully. -/
theorem C2_size_limit_check (p : Parser) (t : Token) (off : Int)
    (rest : List (Token × Int)) :
    (0 < p.maxStanzaSize → p.maxStanzaSize < off - p.lastOffset →
      ParseElement p ((t, off) :: rest) = .err .tooLargeStanza p rest)
    ∧ (p.maxStanzaSize ≤ 0 → isTooLarge (ParseElement p ((t, off) :: rest)) = false)
    ∧ (isTooLarge (ParseElement p ((t, off) :: rest)) = true →
        0 < p.maxStanzaSize ∧
          ∃ t2 off2, (((t2, off2) = (t, off) ∨ (t2, off2) ∈ rest) ∧
            p.maxStanzaSize < off2 - p.lastOffset))
    ∧ (∀ u : XTree, treeWF u = true →
        ParseElement (NewParser 0) (treeToks u) = .ok (some (elemOf u)) (NewParser 0) []) := by
  refine ⟨fun h1 h2 => step_tooLarge p t off rest h1 h2,
          fun h => parse_noTooLarge _ p h,
          fun h => ?_, fun u hu => ?_⟩
  · obtain ⟨hm, t2, off2, hmem, hlt⟩ := parse_tooLarge_source _ p h
    exact ⟨hm, t2, off2, by simpa using hmem, hlt⟩
  · have h0 := parse_top u (NewParser 0) [] (by decide) hu rfl rfl
    rw [List.append_nil] at h0
    exact h0

theorem C2_size_limit_check_witness :
    ParseElement (NewParser 10) [(Token.procInst, 100)]
      = .err .tooLargeStanza (NewParser 10) []
    ∧ isTooLarge (ParseElement (NewParser 0) [(Token.procInst, 1000000)]) = false := by
  constructor
  · exact (C2_size_limit_check (NewParser 10) Token.procInst 100 []).1
      (by decide) (by decide)
  · exact (C2_size_limit_check (NewParser 0) Token.procInst 1000000 []).2.1 (by decide)

/-- Claim C3: the reserved stream-opening start tag at the top level
completes immediately: the call returns the synthetic element — attributes
preserved, empty text, no children — without consuming any further input. -/
theorem C3_stream_open (p : Parser) (attrs : List RawAttr) (off : Int)
    (rest : List (Token × Int))
    (hs : sizeOK p off) (h1 : p.parsingStack = []) (h2 : p.parsingIndex = -1) :
    ParseElement p ((Token.startElement streamName streamName attrs, off) :: rest)
      = .ok (some (Element.mk (xmlName streamName streamName)
              (attributeSet (attrs.map fun a => ⟨xmlName a.space a.localName, a.value⟩))
              "" []))
          { p with parsingStack := [], parsingIndex := -1, inElement := false,
                   nextElement := none, lastOffset := off } rest :=
  step_start_stream_root p attrs off rest hs h1 h2

theorem C3_stream_open_witness :
    ParseElement (NewParser 0)
        [(Token.startElement streamName streamName [⟨"", "to", "x"⟩], 40)]
      = .ok (some (Element.mk "stream:stream" [⟨"to", "x"⟩] "" []))
          ⟨none, -1, [], false, 40, 0⟩ [] :=
  C3_stream_open (NewParser 0) [⟨"", "to", "x"⟩] 40 [] (by decide) rfl rfl

/-- Claim C4: an end-element token bearing the reserved stream name fails
the call with `ErrStreamClosedByPeer`, whatever the current stack contents
(the parser state is quantified arbitrarily). -/
theorem C4_stream_close (p : Parser) (off : Int) (rest : List (Token × Int))
    (hs : sizeOK p off) :
    ParseElement p ((Token.endElement streamName streamName, off) :: rest)
      = .err .streamClosedByPeer p rest :=
  step_end_streamTok p off rest hs

theorem C4_stream_close_witness :
    ParseElement ⟨none, 0, [Element.mk "a" [] "" []], true, 0, 0⟩
        [(Token.endElement streamName streamName, 5)]
      = .err .streamClosedByPeer ⟨none, 0, [Element.mk "a" [] "" []], true, 0, 0⟩ [] :=
  C4_stream_close ⟨none, 0, [Element.mk "a" [] "" []], true, 0, 0⟩ 5 [] (by decide)

/-- Token stream of `<a><b></b>x` — character data arriving right after a
child element closed, while `<a>` is still open. -/
def c5toks : List (Token × Int) :=
  [(Token.startElement "" "a" [], 3), (Token.startElement "" "b" [], 6),
   (Token.endElement "" "b", 10), (Token.charData "x", 11)]

/-- Claim C5 counterexample: the call returns `Ok(None)` although the parser
is still inside the open element `<a>` (depth 0, not -1) — the guard is the
`inElement` flag, which every `closeElement` clears, not the depth. -/
theorem C5_okNone_inside_element_cex :
    ParseElement (NewParser 0) c5toks
      = .ok none
          ⟨none, 0, [Element.mk "a" [] "" [Element.mk "b" [] "" []]], false, 0, 0⟩ []
    ∧ (⟨none, 0, [Element.mk "a" [] "" [Element.mk "b" [] "" []]], false, 0, 0⟩
        : Parser).parsingIndex ≠ -1 :=
  ⟨rfl, by decide⟩

/-- Token stream of `<a/>   <b/>`: two stanzas separated by top-level
whitespace. -/
def wsToks : List (Token × Int) :=
  [(Token.startElement "" "a" [], 3), (Token.endElement "" "a", 3),
   (Token.charData "   ", 7), (Token.startElement "" "b" [], 11),
   (Token.endElement "" "b", 11)]

/-- Claim C5 (amended): a character-data token ends the call with `Ok(None)`
if and only if the `inElement` flag is down — which holds at depth -1 but
also just after any child element closed — otherwise the text of the stack
top is overwritten and the loop continues; top-level whitespace between two
stanzas still yields the two stanzas with one `Ok(None)` call in between and
no error. -/
theorem C5_charData_flag (p : Parser) (s : String) (off : Int)
    (rest : List (Token × Int)) (l : List Element) (c : Element) :
    (p.inElement = false → sizeOK p off →
      ParseElement p ((Token.charData s, off) :: rest) = .ok none p rest)
    ∧ (p.inElement = true → sizeOK p off → p.parsingStack = l ++ [c] →
        p.parsingIndex = (l.length : Int) →
        ParseElement p ((Token.charData s, off) :: rest)
          = ParseElement { p with parsingStack := l ++ [c.withText s] } rest)
    ∧ drive (NewParser 0) wsToks 3
      = [.ok (some (Element.mk "a" [] "" [])) ⟨none, -1, [], false, 3, 0⟩
           [(Token.charData "   ", 7), (Token.startElement "" "b" [], 11),
            (Token.endElement "" "b", 11)],
         .ok none ⟨none, -1, [], false, 3, 0⟩
           [(Token.startElement "" "b" [], 11), (Token.endElement "" "b", 11)],
         .ok (some (Element.mk "b" [] "" [])) ⟨none, -1, [], false, 11, 0⟩ []] := by
  refine ⟨fun hin hs => step_char_top p s off rest hs hin,
          fun hin hs h1 h2 => step_char_in p s off rest l c hs hin h1 h2, ?_⟩
  rfl

theorem C5_charData_flag_witness :
    ParseElement (NewParser 0) [(Token.charData " ", 2)] = .ok none (NewParser 0) []
    ∧ ParseElement ⟨none, 0, [Element.mk "a" [] "" []], true, 0, 0⟩
        [(Token.charData "hi", 5)]
      = ParseElement ⟨none, 0, [Element.mk "a" [] "hi" []], true, 0, 0⟩ [] := by
  constructor
  · exact (C5_charData_flag (NewParser 0) " " 2 [] [] (Element.mk "" [] "" [])).1
      rfl (by decide)
  · exact (C5_charData_flag ⟨none, 0, [Element.mk "a" [] "" []], true, 0, 0⟩
      "hi" 5 [] [] (Element.mk "a" [] "" [])).2.1 rfl (by decide) rfl (by decide)

/-- Claim C6: for every well-formed element — no reserved stream names,
attribute names distinct per tag — parsing its token stream reproduces the
element exactly: qualified name, attributes in source order with their
values, text, and children in document order. -/
theorem C6_document_order (t : XTree) (h : treeWF t = true) :
    ParseElement (NewParser 0) (treeToks t) = .ok (some (elemOf t)) (NewParser 0) [] := by
  have h0 := parse_top t (NewParser 0) [] (by decide) h rfl rfl
  rw [List.append_nil] at h0
  exact h0

/-- A concrete nested element with attributes:
`<message to="romeo" id="1"><body>hello</body><x:extra k="v"/></message>`. -/
def c6tree : XTree :=
  XTree.node "" "message" [⟨"", "to", "romeo"⟩, ⟨"", "id", "1"⟩] ""
    [XTree.node "" "body" [] "hello" [],
     XTree.node "x" "extra" [⟨"", "k", "v"⟩] "" []]

theorem C6_document_order_witness :
    treeWF c6tree = true
    ∧ ParseElement (NewParser 0) (treeToks c6tree)
      = .ok (some (elemOf c6tree)) (NewParser 0) [] :=
  ⟨by decide, C6_document_order c6tree (by decide)⟩

/-- Claim C7: `ParseElement` is deterministic — two fresh parser instances
with the same configuration driven over the identical token sequence yield
the identical sequence of results. -/
theorem C7_deterministic (max : Int) (toks : List (Token × Int)) (n : Nat)
    (p q : Parser) (hp : p = NewParser max) (hq : q = NewParser max) :
    drive p toks n = drive q toks n := by
  subst hp; subst hq; rfl

theorem C7_deterministic_witness :
    drive (NewParser 0) [(Token.procInst, 1)] 2
      = drive (NewParser 0) [(Token.procInst, 1)] 2 :=
  C7_deterministic 0 [(Token.procInst, 1)] 2 (NewParser 0) (NewParser 0) rfl rfl

/-- Claim C8 counterexample: a bare non-stream end tag as the first token
(`</a>`) makes the Go code index `parsingStack[-1]` — an out-of-range access,
modelled as a panic — so `ParseElement` is not total on arbitrary token
input. -/
theorem C8_bare_end_panics_cex :
    ParseElement (NewParser 0) [(Token.endElement "" "a", 3)] = PResult.panic := rfl

/-- Claim C8 (amended): from any state satisfying the parser invariant,
`ParseElement` returns a result for every token sequence except that a
panic can arise only from a non-stream end-element token — heading some
suffix of the input — processed with the stack empty (depth -1), through
which the call's value then factors; a character-data token with the stack
empty is safe (under the invariant the `inElement` flag is down, so the
call returns `Ok(None)` without touching the stack); and a non-stream
end-element token at depth -1 does perform the out-of-range stack access
(panic), so the exception is real. -/
theorem C8_totality_amended (p : Parser) (s sp lo : String) (off : Int)
    (rest toks : List (Token × Int)) :
    (Inv p → ParseElement p toks = PResult.panic →
      ∃ (sp2 lo2 : String) (off2 : Int) (rest2 : List (Token × Int)) (p1 : Parser),
        ((Token.endElement sp2 lo2, off2) :: rest2) <:+ toks ∧
        Inv p1 ∧ p1.parsingIndex = -1 ∧
        (lo2 == streamName && sp2 == streamName) = false ∧
        ParseElement p toks
          = ParseElement p1 ((Token.endElement sp2 lo2, off2) :: rest2) ∧
        ParseElement p1 ((Token.endElement sp2 lo2, off2) :: rest2) = PResult.panic)
    ∧ (Inv p → p.parsingIndex = -1 → sizeOK p off →
        ParseElement p ((Token.charData s, off) :: rest) = .ok none p rest)
    ∧ (p.parsingIndex = -1 → sizeOK p off →
        (lo == streamName && sp == streamName) = false →
        ParseElement p ((Token.endElement sp lo, off) :: rest) = PResult.panic) := by
  refine ⟨fun hinv h => parse_panic_source toks p hinv h, ?_, ?_⟩
  · intro hinv hidx hs
    have hin : p.inElement = false := by
      cases hb : p.inElement
      · rfl
      · exact absurd (hinv.2 hb) (by rw [hidx]; decide)
    exact step_char_top p s off rest hs hin
  · intro hidx hs hn
    exact step_end_bare p sp lo off rest hs hn hidx

theorem C8_totality_amended_witness :
    (∃ (sp2 lo2 : String) (off2 : Int) (rest2 : List (Token × Int)) (p1 : Parser),
        ((Token.endElement sp2 lo2, off2) :: rest2) <:+ [(Token.endElement "" "x", 4)] ∧
        Inv p1 ∧ p1.parsingIndex = -1 ∧
        (lo2 == streamName && sp2 == streamName) = false ∧
        ParseElement (NewParser 0) [(Token.endElement "" "x", 4)]
          = ParseElement p1 ((Token.endElement sp2 lo2, off2) :: rest2) ∧
        ParseElement p1 ((Token.endElement sp2 lo2, off2) :: rest2) = PResult.panic)
    ∧ ParseElement (NewParser 0) [(Token.charData " ", 4)] = .ok none (NewParser 0) []
    ∧ ParseElement (NewParser 0) [(Token.endElement "" "x", 4)] = PResult.panic := by
  refine ⟨?_, ?_, ?_⟩
  · exact (C8_totality_amended (NewParser 0) " " "" "x" 4 []
      [(Token.endElement "" "x", 4)]).1
      ⟨by decide, by intro hh; simp [NewParser] at hh⟩ rfl
  · exact (C8_totality_amended (NewParser 0) " " "" "x" 4 [] []).2.1
      ⟨by decide, by intro hh; simp [NewParser] at hh⟩ rfl (by decide)
  · exact (C8_totality_amended (NewParser 0) " " "" "x" 4 [] []).2.2 rfl (by decide) (by decide)

/-- Token stream of `<a><stream:stream ...>` — a stream-opening tag nested
inside an open element. -/
def c9toks : List (Token × Int) :=
  [(Token.startElement "" "a" [], 3), (Token.startElement "stream" "stream" [], 20)]

/-- Claim C9 counterexample: a call that returns `Ok(None)` (nested
stream-start reaching the `done:` path) mutates the committed offset
baseline from 0 to 20 — so the baseline is not updated only on calls
returning a completed element. -/
theorem C9_lastOffset_okNone_cex :
    ParseElement (NewParser 0) c9toks
      = .ok none
          ⟨none, 0, [Element.mk "a" [] "" [Element.mk "stream:stream" [] "" []]],
            false, 20, 0⟩ []
    ∧ (NewParser 0).lastOffset = 0 :=
  ⟨rfl, rfl⟩

/-- Claim C9 (amended): the committed-offset baseline is written exactly on
the `done:` path — reached on ordinary top-level completion and on a nested
stream-start tag (the latter returning `Ok(None)`) — while every error
return, every processing-instruction return, and every top-level
character-data return leaves it unchanged. -/
theorem C9_lastOffset_baseline (p : Parser) (s sp lo : String) (off : Int)
    (rest toks : List (Token × Int)) (l : List Element) (parent c : Element)
    (attrs : List RawAttr) :
    (∀ (e : PError) (p1 : Parser) (r : List (Token × Int)),
        ParseElement p toks = .err e p1 r → p1.lastOffset = p.lastOffset)
    ∧ (sizeOK p off → ParseElement p ((Token.procInst, off) :: rest) = .ok none p rest)
    ∧ (p.inElement = false → sizeOK p off →
        ParseElement p ((Token.charData s, off) :: rest) = .ok none p rest)
    ∧ (sizeOK p off → p.parsingStack = l ++ [parent] →
        p.parsingIndex = (l.length : Int) →
        ParseElement p ((Token.startElement streamName streamName attrs, off) :: rest)
          = .ok p.nextElement
              { p with parsingStack :=
                         l ++ [parent.AppendElement (startElementElem streamName streamName attrs)],
                       parsingIndex := (l.length : Int), inElement := false,
                       nextElement := none, lastOffset := off } rest)
    ∧ ((lo == streamName && sp == streamName) = false → sizeOK p off →
        p.parsingStack = [c] → p.parsingIndex = 0 → c.name = xmlName sp lo →
        ParseElement p ((Token.endElement sp lo, off) :: rest)
          = .ok (some c) { p with parsingStack := [], parsingIndex := -1,
                                  inElement := false, nextElement := none,
                                  lastOffset := off } rest) :=
  ⟨fun e p1 r h => parse_err_lastOffset toks p e p1 r h,
   fun hs => step_procInst p off rest hs,
   fun hin hs => step_char_top p s off rest hs hin,
   fun hs h1 h2 => step_start_stream_child p attrs off rest l parent hs h1 h2,
   fun hn hs h1 h2 hm => step_end_match_root p sp lo off rest c hs hn h1 h2 hm⟩

theorem C9_lastOffset_baseline_witness :
    (NewParser 5).lastOffset = (NewParser 5).lastOffset
    ∧ ParseElement ⟨none, 0, [Element.mk "a" [] "" []], true, 0, 0⟩
        [(Token.startElement streamName streamName [], 7)]
      = .ok none
          ⟨none, 0, [Element.mk "a" [] "" [Element.mk "stream:stream" [] "" []]],
            false, 7, 0⟩ [] := by
  constructor
  · exact (C9_lastOffset_baseline (NewParser 5) "" "" "" 0 [] [(Token.procInst, 100)]
      [] (Element.mk "" [] "" []) (Element.mk "" [] "" []) []).1
      PError.tooLargeStanza (NewParser 5) [] (by rfl)
  · exact (C9_lastOffset_baseline ⟨none, 0, [Element.mk "a" [] "" []], true, 0, 0⟩
      "" "" "" 7 [] [] [] (Element.mk "a" [] "" []) (Element.mk "" [] "" []) []).2.2.2.1
      (by decide) rfl (by decide)

/-- Claim C10: a stream-start tag read while inside an open element is
pushed, immediately popped and appended as the last child of the enclosing
element, and the call returns `Ok(None)` with the enclosing element still in
progress on the stack. -/
theorem C10_nested_stream_start (p : Parser) (attrs : List RawAttr) (off : Int)
    (rest : List (Token × Int)) (l : List Element) (parent : Element)
    (hs : sizeOK p off) (hnext : p.nextElement = none)
    (h1 : p.parsingStack = l ++ [parent]) (h2 : p.parsingIndex = (l.length : Int)) :
    ParseElement p ((Token.startElement streamName streamName attrs, off) :: rest)
      = .ok none
          { p with parsingStack :=
                     l ++ [parent.AppendElement (startElementElem streamName streamName attrs)],
                   parsingIndex := (l.length : Int), inElement := false,
                   nextElement := none, lastOffset := off } rest := by
  have h := step_start_stream_child p attrs off rest l parent hs h1 h2
  rw [hnext] at h
  exact h

theorem C10_nested_stream_start_witness :
    ParseElement ⟨none, 1, [Element.mk "a" [] "" [], Element.mk "b" [] "" []], true, 0, 0⟩
        [(Token.startElement streamName streamName [], 9)]
      = .ok none
          ⟨none, 1, [Element.mk "a" [] "" [],
                     Element.mk "b" [] "" [Element.mk "stream:stream" [] "" []]],
            false, 9, 0⟩ [] := by
  exact C10_nested_stream_start
    ⟨none, 1, [Element.mk "a" [] "" [], Element.mk "b" [] "" []], true, 0, 0⟩
    [] 9 [] [Element.mk "a" [] "" []] (Element.mk "b" [] "" [])
    (by decide) rfl rfl (by decide)

end Jackal
